import Mathlib

/-!
Verification development for the LifeOS plan-orchestration core.

This file gives a shallow embedding, in Lean 4, of the components of the
repository that the checked properties talk about:

* the planning schemas (`src/agent/planning/schemas.py`):
  `StepStatus`, `AgentType`, `PlanStep`, `ExecutionPlan`, `SubAgentResult`,
  `SynthesisResult`;
* the orchestrator (`src/agent/master_agent.py`):
  `_create_plan`, `_execute_plan`, `_execute_step`, `_synthesize` and the
  planning fallback of `process`;
* the bounded worker loop (`src/agent/sub_agents/base_sub_agent.py`):
  `BaseSubAgent.execute` and `_execute_tool`;
* the confirmation gate (`src/agent/confirmation.py`):
  `PendingAction`, `ConfirmationManager`;
* the scratchpad (`src/agent/working_memory.py`): `WorkingMemory`.

External collaborators (the OpenAI reasoning service, the concrete tools)
are modelled as oracles: a function from the call site (iteration number or
step index) to the outcome the service produced there.  Wall-clock time is
an explicit natural-number parameter (seconds).  Python dictionaries are
modelled as association lists, `datetime` values as `Nat`, and exceptions
as explicit outcome constructors.
-/

/-- Status of a plan step (`StepStatus` in `schemas.py`). -/
inductive StepStatus
  | pending
  | running
  | completed
  | failed
  | skipped
deriving DecidableEq, Repr

/-- Available sub-agent types (`AgentType` in `schemas.py`). -/
inductive AgentType
  | finance
  | tasks
  | calendar
  | email
  | notes
  | web
  | print
  | automations
  | memory
deriving DecidableEq, Repr

/-- The `.value` string of an `AgentType` member. -/
def agentValue : AgentType → String
  | .finance => "finance"
  | .tasks => "tasks"
  | .calendar => "calendar"
  | .email => "email"
  | .notes => "notes"
  | .web => "web"
  | .print => "print"
  | .automations => "automations"
  | .memory => "memory"

/-- Boolean test for the `PENDING` status. -/
def isPending : StepStatus → Bool
  | .pending => true
  | _ => false

/-- Boolean test for the `COMPLETED` status. -/
def isCompleted : StepStatus → Bool
  | .completed => true
  | _ => false

/-- Boolean test for the `FAILED` status. -/
def isFailed : StepStatus → Bool
  | .failed => true
  | _ => false

/-- Result returned by a sub-agent after executing a step
(`SubAgentResult` in `schemas.py`).  The open-typed `data` dict is
modelled as an association list of strings. -/
structure SubAgentResult where
  success : Bool
  output : String
  data : List (String × String) := []
  error : Option String := none
  requires_replanning : Bool := false
  requires_user_input : Bool := false
  user_input_reason : String := ""
  agent_type : Option AgentType := none
  iterations_used : Nat := 0
  tools_called : List String := []
deriving DecidableEq, Repr

/-- A single step in an execution plan (`PlanStep` in `schemas.py`).
Timestamps are `Nat` seconds. -/
structure PlanStep where
  id : String
  agent : AgentType
  task : String
  depends_on : List String := []
  requires_confirmation : Bool := false
  status : StepStatus := .pending
  result : Option SubAgentResult := none
  started_at : Option Nat := none
  completed_at : Option Nat := none
deriving DecidableEq, Repr

/-- A plan created by the Master Agent (`ExecutionPlan` in `schemas.py`). -/
structure ExecutionPlan where
  goal : String
  steps : List PlanStep
  created_at : Nat := 0
  current_step_index : Nat := 0
  is_complete : Bool := false
  requires_user_input : Bool := false
  user_input_reason : String := ""
deriving DecidableEq, Repr

/-- The ids of the completed steps of a step list (the `completed_ids`
set computed by `ExecutionPlan.get_ready_steps`). -/
def completedIds (steps : List PlanStep) : List String :=
  (steps.filter (fun s => isCompleted s.status)).map (fun s => s.id)

/-- Readiness test of one step against a set of completed ids: the step
is `PENDING` and all of its dependencies are met. -/
def isReadyStep (cids : List String) (s : PlanStep) : Bool :=
  isPending s.status && s.depends_on.all (fun d => cids.contains d)

/-- Steps that are ready to execute, dependencies met
(`ExecutionPlan.get_ready_steps`). -/
def get_ready_steps (steps : List PlanStep) : List PlanStep :=
  steps.filter (isReadyStep (completedIds steps))

/-- Index-based view of `get_ready_steps`: the positions of the ready
steps.  The Python orchestrator mutates the selected step objects in
place; positions name those objects in the list model. -/
def readyIdxs (steps : List PlanStep) : List Nat :=
  (List.range steps.length).filter (fun i =>
    match steps[i]? with
    | some s => isReadyStep (completedIds steps) s
    | none => false)

/-- Record of an executed step kept in working memory
(`StepRecord` in `working_memory.py`). -/
structure StepRecord where
  step_id : String
  agent : String
  task : String
  result : SubAgentResult
  timestamp : Nat
deriving DecidableEq, Repr

/-- Build the `StepRecord` that `WorkingMemory.record_step` appends. -/
def mkStepRecord (s : PlanStep) (r : SubAgentResult) (now : Nat) : StepRecord :=
  { step_id := s.id, agent := agentValue s.agent, task := s.task
    result := r, timestamp := now }

/-- One row of `WorkingMemory.get_all_results`. -/
structure ResultRow where
  step_id : String
  agent : String
  task : String
  success : Bool
  output : String
  data : List (String × String)
  error : Option String
deriving DecidableEq, Repr

/-- All step results for synthesis (`WorkingMemory.get_all_results`). -/
def get_all_results (records : List StepRecord) : List ResultRow :=
  records.map (fun r =>
    { step_id := r.step_id, agent := r.agent, task := r.task
      success := r.result.success, output := r.result.output
      data := r.result.data, error := r.result.error })

/-- Summary attached by `_synthesize` in the LLM branch
(the `plan_summary` dict). -/
structure PlanSummary where
  goal : String
  steps_completed : Nat
  steps_failed : Nat
deriving DecidableEq, Repr

/-- Final result of `MasterAgent._synthesize`
(`SynthesisResult` in `schemas.py`). -/
structure SynthesisResult where
  response : String
  needs_confirmation : Bool := false
  confirmation_details : String := ""
  plan_summary : Option PlanSummary := none
deriving DecidableEq, Repr

/-- Outcome of the one reasoning-service call `_synthesize` can make:
the request raised an exception, the reply was truncated
(`finish_reason == "length"`), or it carried (optional) content. -/
inductive SynthLLM
  | raised
  | finishLength
  | content (s : Option String)
deriving DecidableEq, Repr

/-- The `needs_confirmation` flag `_synthesize` computes: some step both
requires confirmation and completed. -/
def needsConfirmationFlag (plan : ExecutionPlan) : Bool :=
  plan.steps.any (fun s => s.requires_confirmation && isCompleted s.status)

/-- The reasoning-service branch of `_synthesize` (the code from the
`try` with the `chat.completions.create` call to the `except` fallback).
On truncation a fixed cut-off message is returned; on success the
content (or the empty string); on an exception the successful outputs
are concatenated with newlines, with `"Done."` replacing an empty
concatenation (Python `combined or "Done."`). -/
def synthesizeViaLLM (llm : SynthLLM) (plan : ExecutionPlan)
    (results : List ResultRow) : SynthesisResult :=
  match llm with
  | .finishLength =>
      { response := "❌ Response was cut off. Try asking for less detail." }
  | .content s =>
      { response := s.getD ""
        needs_confirmation := needsConfirmationFlag plan
        plan_summary := some
          { goal := plan.goal
            steps_completed := (plan.steps.filter (fun s => isCompleted s.status)).length
            steps_failed := (plan.steps.filter (fun s => isFailed s.status)).length } }
  | .raised =>
      let combined :=
        String.intercalate "\n" ((results.filter (fun r => r.success)).map (fun r => r.output))
      { response := if combined = "" then "Done." else combined }

/-- `MasterAgent._synthesize` over the recorded step results.  The
second component reports whether the reasoning service was called
(the single-success pass-through and the empty case return before the
`chat.completions.create` call). -/
def synthesize (llm : SynthLLM) (plan : ExecutionPlan)
    (records : List StepRecord) : SynthesisResult × Bool :=
  let results := get_all_results records
  match results with
  | [] => ({ response := "I couldn\x27t complete your request." }, false)
  | [r] =>
      if r.success then
        ({ response := r.output, needs_confirmation := needsConfirmationFlag plan }, false)
      else (synthesizeViaLLM llm plan results, true)
  | _ => (synthesizeViaLLM llm plan results, true)

/-! ## Confirmation gate (`src/agent/confirmation.py`) -/

/-- The static sensitive-action allow-list: the keys of the
`SENSITIVE_ACTIONS` dict. -/
def sensitiveActions : List String :=
  ["send_email", "create_event", "create_reminder", "delete_event",
   "settle_loan", "delete_note", "delete_task"]

/-- `ConfirmationManager.requires_confirmation`: membership in the
static allow-list. -/
def requiresConfirmation (action_name : String) : Bool :=
  sensitiveActions.contains action_name

/-- A pending sensitive action (`PendingAction`).  Times are `Nat`
seconds; the TTL fixed by the dataclass default is 5 minutes. -/
structure PendingAction where
  action_name : String
  arguments : List (String × String)
  description : String
  action_id : String
  created_at : Nat
  expires_at : Nat
deriving DecidableEq, Repr

/-- `PendingAction.is_expired`: strictly past the expiry instant. -/
def PendingAction.is_expired (p : PendingAction) (now : Nat) : Bool :=
  decide (p.expires_at < now)

/-- The `pending_actions` table of `ConfirmationManager`:
user id to pending action, one entry per user. -/
abbrev ConfState := List (Nat × PendingAction)

/-- Dictionary lookup `pending_actions.get(user_id)`. -/
def confLookup (m : ConfState) (u : Nat) : Option PendingAction :=
  match m with
  | [] => none
  | (v, p) :: rest => if v = u then some p else confLookup rest u

/-- Dictionary deletion `del pending_actions[user_id]`. -/
def confRemove (m : ConfState) (u : Nat) : ConfState :=
  m.filter (fun e => decide (e.1 ≠ u))

/-- Dictionary assignment `pending_actions[user_id] = pending`. -/
def confSet (m : ConfState) (u : Nat) (p : PendingAction) : ConfState :=
  confRemove m u ++ [(u, p)]

/-- `ConfirmationManager.create_pending_action`: build the pending entry
with `created_at = now` and `expires_at = now + 5 * 60`, replacing any
prior entry for the user.  The human-readable `description` template
formatting is taken as an input string, since no checked property
observes its contents; the code appends a fixed expiry warning to it. -/
def create_pending_action (m : ConfState) (u : Nat) (now : Nat)
    (action_name : String) (arguments : List (String × String))
    (description : String) (action_id : String) : PendingAction × ConfState :=
  let p : PendingAction :=
    { action_name := action_name, arguments := arguments
      description := description ++ "\n\n⏱️ _Expires in 5 minutes_"
      action_id := action_id, created_at := now, expires_at := now + 5 * 60 }
  (p, confSet m u p)

/-- `ConfirmationManager.get_pending_action`: return the entry if
present and not expired; an expired entry is deleted (lazy purge) and
reported absent. -/
def get_pending_action (now : Nat) (m : ConfState) (u : Nat) :
    Option PendingAction × ConfState :=
  match confLookup m u with
  | some p => if p.is_expired now then (none, confRemove m u) else (some p, m)
  | none => (none, m)

/-- `ConfirmationManager.confirm_action`: return and clear the pending
entry when `get_pending_action` finds one; otherwise report absent. -/
def confirm_action (now : Nat) (m : ConfState) (u : Nat) :
    Option PendingAction × ConfState :=
  let r := get_pending_action now m u
  match r.1 with
  | some p => (some p, confRemove r.2 u)
  | none => (none, r.2)

/-! ## Bounded worker loop (`src/agent/sub_agents/base_sub_agent.py`) -/

/-- Result of one registry tool (`ToolResult` in `tools/base_tool.py`);
the `Any` data slot is modelled as an optional string. -/
structure ToolResult where
  success : Bool
  data : Option String := none
  error : Option String := none
deriving DecidableEq, Repr

/-- One requested action invocation (an entry of `message.tool_calls`). -/
structure ToolCall where
  name : String
  args : List (String × String) := []
deriving DecidableEq, Repr

/-- Outcome of one `_call_llm` call inside the worker loop: either the
call raised (which includes the truncation check, re-raised as the
distinct cut-off message), or a message with its list of requested tool
calls (possibly empty) and optional content.  An empty list is falsy in
Python, so it means a final answer. -/
inductive WorkerLLM
  | raised (msg : String)
  | message (tool_calls : List ToolCall) (content : Option String)
deriving DecidableEq, Repr

/-- `BaseSubAgent._execute_tool`: resolve the function name through the
per-agent `tool_mapping`, then through the tool registry; only when both
resolve is the registry handler invoked.  The second component records
whether a registry invocation happened. -/
def execute_tool (tool_mapping : List (String × String)) (hasTool : String → Bool)
    (registry : String → List (String × String) → ToolResult)
    (fn : String) (args : List (String × String)) : ToolResult × Bool :=
  match tool_mapping.lookup fn with
  | none => ({ success := false, error := some ("Unknown function: " ++ fn) }, false)
  | some tname =>
      if hasTool tname then (registry fn args, true)
      else ({ success := false, error := some ("Tool not found: " ++ tname) }, false)

/-- Update of the `extracted_data` dict by `_extract_data_from_result`:
when the tool result succeeded and carries data, record it under the
function name. -/
def extractData (extracted : List (String × String)) (fn : String)
    (res : ToolResult) : List (String × String) :=
  match res.data with
  | some d => if res.success then (extracted.filter (fun e => decide (e.1 ≠ fn))) ++ [(fn, d)] else extracted
  | none => extracted

/-- Process the tool calls of one worker iteration: append each function
name to `tools_called`, execute it (`_execute_tool`), extract data, and
record the registry invocations that actually happened.  This mirrors
the `for tc in tool_calls` body of `BaseSubAgent.execute`. -/
def runToolCalls (tool_mapping : List (String × String)) (hasTool : String → Bool)
    (registry : String → List (String × String) → ToolResult)
    (calls : List ToolCall)
    (acc : List String × List (String × String) × List String) :
    List String × List (String × String) × List String :=
  calls.foldl (fun acc c =>
    let tc := acc.1 ++ [c.name]
    let r := execute_tool tool_mapping hasTool registry c.name c.args
    let ex := extractData acc.2.1 c.name r.1
    let inv := if r.2 then acc.2.2 ++ [c.name] else acc.2.2
    (tc, ex, inv)) acc

/-- The agentic loop of `BaseSubAgent.execute`, with the remaining
iteration budget as fuel (`fuel + iterations = max_iterations` at every
call).  The reasoning-service oracle is keyed by the iteration number.
The second component of the result is the list of registry invocations
performed, in order.  The conversation list is not carried: the oracle
already fixes the reply of every iteration. -/
def sub_agent_loop (atype : Option AgentType) (llm : Nat → WorkerLLM)
    (tool_mapping : List (String × String)) (hasTool : String → Bool)
    (registry : String → List (String × String) → ToolResult) :
    Nat → Nat → List String → List (String × String) → List String →
    SubAgentResult × List String
  | 0, iterations, tools_called, _extracted, invoked =>
      ({ success := false
         output := "Max iterations reached without completing task"
         error := some "iteration_limit"
         requires_replanning := true
         agent_type := atype
         iterations_used := iterations
         tools_called := tools_called }, invoked)
  | fuel + 1, iterations, tools_called, extracted, invoked =>
      let iters := iterations + 1
      match llm iters with
      | .raised msg =>
          ({ success := false, output := "", error := some msg
             agent_type := atype, iterations_used := iters
             tools_called := tools_called }, invoked)
      | .message calls content =>
          if calls.isEmpty then
            ({ success := true, output := content.getD ""
               data := extracted, agent_type := atype
               iterations_used := iters, tools_called := tools_called }, invoked)
          else
            let acc := runToolCalls tool_mapping hasTool registry calls
              (tools_called, extracted, invoked)
            sub_agent_loop atype llm tool_mapping hasTool registry
              fuel iters acc.1 acc.2.1 acc.2.2

/-- `BaseSubAgent.execute`: run the agentic loop from a fresh state with
the iteration cap of the agent kind. -/
def sub_agent_execute (atype : Option AgentType) (max_iterations : Nat)
    (llm : Nat → WorkerLLM) (tool_mapping : List (String × String))
    (hasTool : String → Bool)
    (registry : String → List (String × String) → ToolResult) :
    SubAgentResult × List String :=
  sub_agent_loop atype llm tool_mapping hasTool registry max_iterations 0 [] [] []

/-- The `tool_mapping` of `EmailSubAgent.get_tool_mapping`. -/
def emailToolMapping : List (String × String) :=
  [("send_email", "gmail"), ("read_emails", "gmail"), ("get_email", "gmail")]

/-- The distinct cut-off message `_call_llm` raises inside the worker on
`finish_reason == "length"` (the source byte sequence renders as a
mojibake cross mark). -/
def workerCutMessage : String :=
  "Response was cut off (token limit hit). Try a simpler request or break it into parts."

/-! ## Plan creation and the planning fallback (`src/agent/master_agent.py`) -/

/-- A step as decoded from the `create_plan` tool-call arguments. -/
structure RawStep where
  id : String
  agent : AgentType
  task : String
  depends_on : List String := []
  requires_confirmation : Bool := false
deriving DecidableEq, Repr

/-- Outcome of the planner reasoning-service call made by
`_create_plan`: the request raised, the reply was truncated
(`finish_reason == "length"`), it carried a parsed `create_plan` tool
call, or it carried no tool calls. -/
inductive PlannerLLM
  | raised (msg : String)
  | finishLength
  | toolCall (goal : Option String) (steps : List RawStep)
  | noToolCalls
deriving DecidableEq, Repr

/-- The message of the exception `_create_plan` raises on truncation
(before its own `except` swallows it). -/
def planningCutMessage : String :=
  "❌ Planning was cut off (token limit hit). Try a simpler request."

/-- `MasterAgent._create_plan`.  On a parsed tool call the plan is built
from the raw steps (absent fields defaulted); on truncation the code
raises, but the blanket `except Exception` of the same function catches
that exception and returns `None`, exactly as it does for a raised
request or a reply without tool calls. -/
def create_plan (user_message : String) (now : Nat) (llm : PlannerLLM) :
    Option ExecutionPlan :=
  match llm with
  | .raised _ => none
  | .finishLength => none
  | .noToolCalls => none
  | .toolCall goal raw =>
      some { goal := goal.getD user_message
             steps := raw.map (fun r =>
               { id := r.id, agent := r.agent, task := r.task
                 depends_on := r.depends_on
                 requires_confirmation := r.requires_confirmation })
             created_at := now }

/-- The fixed reply of `MasterAgent._direct_response`. -/
def directResponseText : String :=
  "I couldn\x27t understand how to help with that. Could you rephrase?"

/-- The planning stage of `MasterAgent.process`: when `_create_plan`
returns no plan, or a plan without steps, the generic direct response is
returned; otherwise execution proceeds with the plan. -/
def plan_or_fallback (user_message : String) (now : Nat) (llm : PlannerLLM) :
    Sum ExecutionPlan String :=
  match create_plan user_message now llm with
  | none => .inr directResponseText
  | some plan =>
      if plan.steps.isEmpty then .inr directResponseText else .inl plan

/-! ## Scratchpad (`src/agent/working_memory.py`) -/

/-- A session note appended by `WorkingMemory.add_note`. -/
structure NoteEntry where
  content : String
  category : String
  timestamp : Nat
deriving DecidableEq, Repr

/-- The in-memory state of `WorkingMemory`. -/
structure WMState where
  current_plan : Option ExecutionPlan := none
  step_records : List StepRecord := []
  session_notes : List NoteEntry := []
  user_context : List (String × String) := []
deriving DecidableEq, Repr

/-- The serialized `state.json` document written by
`WorkingMemory._save`: the full state, rewritten on every mutation. -/
structure WMStorage where
  current_plan : Option ExecutionPlan
  step_records : List StepRecord
  session_notes : List NoteEntry
  user_context : List (String × String)
deriving DecidableEq, Repr

/-- `WorkingMemory._save`: serialize the whole state. -/
def wm_save (st : WMState) : WMStorage :=
  { current_plan := st.current_plan, step_records := st.step_records
    session_notes := st.session_notes, user_context := st.user_context }

/-- Information lost by the `PlanStep.to_dict` / `from_dict` round trip:
`from_dict` does not restore `result`, `started_at` or `completed_at`. -/
def planStepRoundtrip (s : PlanStep) : PlanStep :=
  { s with result := none, started_at := none, completed_at := none }

/-- The `ExecutionPlan.to_dict` / `from_dict` round trip applied on
load. -/
def planRoundtrip (p : ExecutionPlan) : ExecutionPlan :=
  { p with steps := p.steps.map planStepRoundtrip }

/-- `WorkingMemory._load` over a fresh instance: restore the plan (via
its dict round trip), the session notes and the user context; the
`step_records` list is deliberately not loaded (source comment: they are
only relevant for the current plan execution). -/
def wm_load (disk : Option WMStorage) : WMState :=
  match disk with
  | none => {}
  | some d =>
      { current_plan := d.current_plan.map planRoundtrip
        step_records := []
        session_notes := d.session_notes
        user_context := d.user_context }

/-- One mutation of the scratchpad.  Timestamps are explicit. -/
inductive WMOp
  | set_plan (p : ExecutionPlan)
  | clear_plan
  | record_step (s : PlanStep) (r : SubAgentResult) (now : Nat)
  | add_note (note : String) (category : String) (now : Nat)
  | update_user_context (key : String) (value : String)
deriving Repr

/-- Apply one scratchpad mutation; every mutation ends with `_save`, and
the written document is returned alongside the new state. -/
def wm_apply (st : WMState) : WMOp → WMState × WMStorage
  | .set_plan p =>
      let st := { st with current_plan := some p }
      (st, wm_save st)
  | .clear_plan =>
      let st := { st with current_plan := none, step_records := [] }
      (st, wm_save st)
  | .record_step s r now =>
      let st := { st with step_records := st.step_records ++ [mkStepRecord s r now] }
      (st, wm_save st)
  | .add_note note category now =>
      let notes := st.session_notes ++ [{ content := note, category := category, timestamp := now }]
      let st := { st with session_notes := if notes.length > 20 then notes.drop (notes.length - 20) else notes }
      (st, wm_save st)
  | .update_user_context key value =>
      let st := { st with user_context := (st.user_context.filter (fun e => decide (e.1 ≠ key))) ++ [(key, value)] }
      (st, wm_save st)

/-- Run a sequence of scratchpad mutations from a state, returning the
final state and the last written document (none when no mutation ran). -/
def wm_run (st : WMState) : List WMOp → WMState × Option WMStorage
  | [] => (st, none)
  | op :: ops =>
      let r := wm_apply st op
      match wm_run r.1 ops with
      | (st', none) => (st', some r.2)
      | (st', some d) => (st', some d)

/-! ## Plan orchestration (`MasterAgent._execute_plan` / `_execute_step`)

The sub-agent dict built in `MasterAgent.__init__` is modelled by the
predicate `hasAgent` (the truth of `self.sub_agents.get(step.agent)`),
and the awaited `sub_agent.execute` call of each step by the oracle
`outcome`, keyed by the position of the step in the plan: either the
call raised an exception or it returned a `SubAgentResult`.  A wave
first marks every ready step `RUNNING` (the `for step in ready_steps`
loop runs before `asyncio.gather` starts any coroutine), then performs
the per-step effects; the per-step mutations and the `record_step`
appends of concurrently gathered steps never touch another step, so the
wave is a fold over the ready positions (append order within a wave is
fixed to plan order here; no checked property depends on it). -/

/-- Outcome of `sub_agent.execute(step.task, context)` for the step at a
given position. -/
inductive ExecOutcome
  | raised (msg : String)
  | returned (r : SubAgentResult)
deriving DecidableEq, Repr

/-- The failure `SubAgentResult` built inline by `_execute_step`
(`success=False, output="", error=e`). -/
def failureResult (e : String) : SubAgentResult :=
  { success := false, output := "", error := some e }

/-- Effect of `MasterAgent._execute_step` on the step at position `i`
(already marked `RUNNING`): on a missing sub-agent or an exception the
step fails in place with no record; on a returned result the status
follows `result.success`, `completed_at` is set and a step record is
produced for the scratchpad. -/
def execEffect (hasAgent : AgentType → Bool) (outcome : Nat → ExecOutcome)
    (now : Nat) (i : Nat) (s : PlanStep) : PlanStep × Option StepRecord :=
  if hasAgent s.agent = false then
    ({ s with status := .failed
              result := some (failureResult ("No sub-agent for " ++ agentValue s.agent)) },
     none)
  else
    match outcome i with
    | .raised msg =>
        ({ s with status := .failed, result := some (failureResult msg) }, none)
    | .returned r =>
        ({ s with status := if r.success then .completed else .failed
                  result := some r, completed_at := some now },
         some (mkStepRecord s r now))

/-- `MasterAgent._execute_step` at position `i`: apply the effect to
that step and append the produced record, if any, to the scratchpad. -/
def execute_step (hasAgent : AgentType → Bool) (outcome : Nat → ExecOutcome)
    (now : Nat) (i : Nat) (steps : List PlanStep) (records : List StepRecord) :
    List PlanStep × List StepRecord :=
  match steps[i]? with
  | none => (steps, records)
  | some s =>
      let e := execEffect hasAgent outcome now i s
      (steps.set i e.1, records ++ e.2.toList)

/-- Mark the steps at the given positions `RUNNING` with `started_at`
set (the mutation loop over `ready_steps` in `_execute_plan`). -/
def markRunningIdxs (idxs : List Nat) (now : Nat) (steps : List PlanStep) :
    List PlanStep :=
  idxs.foldl (fun st i =>
    match st[i]? with
    | some s => st.set i { s with status := .running, started_at := some now }
    | none => st) steps

/-- Execute the steps at the given positions (the `asyncio.gather` of
one wave). -/
def execSteps (hasAgent : AgentType → Bool) (outcome : Nat → ExecOutcome)
    (now : Nat) (idxs : List Nat) (p : List PlanStep × List StepRecord) :
    List PlanStep × List StepRecord :=
  idxs.foldl (fun p i => execute_step hasAgent outcome now i p.1 p.2) p

/-- One wave of `_execute_plan`: compute the ready positions, mark them
all `RUNNING`, then execute them all. -/
def runWave (hasAgent : AgentType → Bool) (outcome : Nat → ExecOutcome)
    (now : Nat) (steps : List PlanStep) (records : List StepRecord) :
    List PlanStep × List StepRecord :=
  let ready := readyIdxs steps
  execSteps hasAgent outcome now ready (markRunningIdxs ready now steps, records)

/-- How a run of `_execute_plan` ended: all steps resolved (`done`), the
stuck branch was reported (`stuck`), or the fuel ran out (`fuelOut`,
shown below to be unreachable for the fuel `execute_plan` supplies). -/
inductive PlanRunOutcome
  | done
  | stuck
  | fuelOut
deriving DecidableEq, Repr

/-- Number of `PENDING` steps. -/
def countPending (steps : List PlanStep) : Nat :=
  (steps.filter (fun s => isPending s.status)).length

/-- The `while True` loop of `MasterAgent._execute_plan`, with fuel.
Each iteration recomputes the ready set; an empty ready set ends the
loop (`done` when nothing is pending, otherwise the `stuck` branch);
a non-empty ready set runs one wave.  The third component accumulates
every dispatched position (the `tasks` lists handed to
`asyncio.gather`), across waves. -/
def execute_plan_loop (hasAgent : AgentType → Bool) (outcome : Nat → ExecOutcome)
    (now : Nat) :
    Nat → List PlanStep → List StepRecord → List Nat →
    List PlanStep × List StepRecord × List Nat × PlanRunOutcome
  | 0, steps, records, dispatched => (steps, records, dispatched, .fuelOut)
  | fuel + 1, steps, records, dispatched =>
      let ready := readyIdxs steps
      if ready.isEmpty then
        if (steps.filter (fun s => isPending s.status)).isEmpty then
          (steps, records, dispatched, .done)
        else
          (steps, records, dispatched, .stuck)
      else
        let w := runWave hasAgent outcome now steps records
        execute_plan_loop hasAgent outcome now fuel w.1 w.2 (dispatched ++ ready)

/-- `MasterAgent._execute_plan` on the steps of a plan.  The supplied
fuel `countPending steps + 1` is proved sufficient below (every wave
with a non-empty ready set strictly decreases the number of pending
steps), so the loop always ends in the `done` or `stuck` branch. -/
def execute_plan (hasAgent : AgentType → Bool) (outcome : Nat → ExecOutcome)
    (now : Nat) (steps : List PlanStep) :
    List PlanStep × List StepRecord × List Nat × PlanRunOutcome :=
  execute_plan_loop hasAgent outcome now (countPending steps + 1) steps [] []

/-- The status order realized by the orchestrator: `Pending` may
advance to `Running` and on to `Completed` or `Failed`; terminal
statuses never change again.  `statusAdvances a b` says `b` is
reachable from `a` along these transitions (reflexively). -/
def statusAdvances : StepStatus → StepStatus → Bool
  | .pending, .pending => true
  | .pending, .running => true
  | .pending, .completed => true
  | .pending, .failed => true
  | .running, .running => true
  | .running, .completed => true
  | .running, .failed => true
  | .completed, .completed => true
  | .failed, .failed => true
  | .skipped, .skipped => true
  | _, _ => false

/-- The sub-agent call for the step at position `i` (with the given
agent kind) fails however it is attempted: the agent kind has no
registered sub-agent, or the call raises, or it returns an
unsuccessful result. -/
def failsAt (hA : AgentType → Bool) (o : Nat → ExecOutcome) (i : Nat)
    (a : AgentType) : Prop :=
  hA a = false ∨ (∃ msg, o i = .raised msg)
    ∨ (∃ r, o i = .returned r ∧ r.success = false)

/-! ## Concrete data used by counterexamples and witnesses -/

/-- A reasoning-service script for the email worker: the first
iteration requests the sensitive `send_email` action; afterwards a
final answer is returned. -/
def emailScript : Nat → WorkerLLM
  | 1 => .message
      [{ name := "send_email", args := [("to", "sam@example.com"), ("subject", "hi")] }]
      none
  | _ => .message [] (some "Email sent.")

/-- A single-step finance plan step. -/
def sampleStep : PlanStep :=
  { id := "step_1", agent := .finance, task := "Record loan: I owe Sam 20" }

/-- A successful worker result for `sampleStep`. -/
def sampleResult : SubAgentResult :=
  { success := true, output := "Recorded. You owe Sam 20." }

/-- A pending confirmation created at time 0 (expires at 300). -/
def pend0 : PendingAction :=
  { action_name := "send_email", arguments := [], description := "d"
    action_id := "a1", created_at := 0, expires_at := 300 }

/-- A failed step record. -/
def failedRecA : StepRecord :=
  { step_id := "step_1", agent := "finance", task := "t1"
    result := { success := false, output := "", error := some "boom" }, timestamp := 1 }

/-- A second failed step record. -/
def failedRecB : StepRecord :=
  { step_id := "step_2", agent := "calendar", task := "t2"
    result := { success := false, output := "", error := some "bang" }, timestamp := 2 }

/-- A small concrete plan around `sampleStep`. -/
def samplePlan : ExecutionPlan :=
  { goal := "record a loan", steps := [sampleStep] }

/-- A step that will fail (scenario: `A: worker=finance, deps=[]`). -/
def stepB0 : PlanStep :=
  { id := "step_1", agent := .finance, task := "record loan" }

/-- A step depending on `stepB0`
(scenario: `B: worker=calendar, deps=[A]`). -/
def stepA0 : PlanStep :=
  { id := "step_2", agent := .calendar, task := "create event"
    depends_on := ["step_1"] }

/-- An unsuccessful worker result. -/
def failRes0 : SubAgentResult :=
  { success := false, output := "", error := some "boom" }

/-! ## Worker-loop lemmas -/

/-- The worker loop never reports more iterations than the remaining
budget allows: every return path uses the running iteration counter. -/
theorem sub_agent_loop_iterations_le (atype : Option AgentType)
    (llm : Nat → WorkerLLM) (tm : List (String × String)) (ht : String → Bool)
    (reg : String → List (String × String) → ToolResult) :
    ∀ fuel iterations tc ex inv,
      (sub_agent_loop atype llm tm ht reg fuel iterations tc ex inv).1.iterations_used
        ≤ iterations + fuel := by
  intro fuel
  induction fuel with
  | zero =>
      intro iterations tc ex inv
      simp [sub_agent_loop]
  | succ n ih =>
      intro iterations tc ex inv
      simp only [sub_agent_loop]
      cases h : llm (iterations + 1) with
      | raised msg => simp
      | message calls content =>
          by_cases hc : calls.isEmpty
          · simp [hc]
          · simp only [hc, if_false, Bool.false_eq_true]
            calc (sub_agent_loop atype llm tm ht reg n (iterations + 1) _ _ _).1.iterations_used
                ≤ (iterations + 1) + n := ih _ _ _ _
              _ = iterations + (n + 1) := by omega

/-- When every remaining iteration keeps requesting actions, the loop
exhausts its budget and returns the distinguished iteration-limit
failure, with `iterations_used` equal to the exhausted budget. -/
theorem sub_agent_loop_cap (atype : Option AgentType)
    (llm : Nat → WorkerLLM) (tm : List (String × String)) (ht : String → Bool)
    (reg : String → List (String × String) → ToolResult) :
    ∀ fuel iterations tc ex inv,
      (∀ k, iterations < k → k ≤ iterations + fuel →
        ∃ calls content, llm k = .message calls content ∧ calls ≠ []) →
      (sub_agent_loop atype llm tm ht reg fuel iterations tc ex inv).1.success = false
      ∧ (sub_agent_loop atype llm tm ht reg fuel iterations tc ex inv).1.error
          = some "iteration_limit"
      ∧ (sub_agent_loop atype llm tm ht reg fuel iterations tc ex inv).1.iterations_used
          = iterations + fuel := by
  intro fuel
  induction fuel with
  | zero =>
      intro iterations tc ex inv _
      simp [sub_agent_loop]
  | succ n ih =>
      intro iterations tc ex inv hcap
      obtain ⟨calls, content, heq, hne⟩ := hcap (iterations + 1) (by omega) (by omega)
      have hc : calls.isEmpty = false := by
        cases calls with
        | nil => exact absurd rfl hne
        | cons a l => rfl
      simp only [sub_agent_loop, heq, hc, if_false, Bool.false_eq_true]
      have := ih (iterations + 1)
        (runToolCalls tm ht reg calls (tc, ex, inv)).1
        (runToolCalls tm ht reg calls (tc, ex, inv)).2.1
        (runToolCalls tm ht reg calls (tc, ex, inv)).2.2
        (by intro k h1 h2; exact hcap k (by omega) (by omega))
      refine ⟨this.1, this.2.1, ?_⟩
      rw [this.2.2]; omega

/-- C7: a worker execution that reaches its iteration cap without a
final answer (the reasoning service keeps requesting actions on every
iteration up to the cap) returns `success = false` with the
distinguished error `"iteration_limit"`; and for every worker execution
whatsoever, the reported `iterations_used` never exceeds the cap. -/
theorem worker_iteration_limit (atype : Option AgentType) (max_iterations : Nat)
    (llm : Nat → WorkerLLM) (tm : List (String × String)) (ht : String → Bool)
    (reg : String → List (String × String) → ToolResult)
    (hcap : ∀ k, 1 ≤ k → k ≤ max_iterations →
      ∃ calls content, llm k = .message calls content ∧ calls ≠ []) :
    ((sub_agent_execute atype max_iterations llm tm ht reg).1.success = false
      ∧ (sub_agent_execute atype max_iterations llm tm ht reg).1.error
          = some "iteration_limit"
      ∧ (sub_agent_execute atype max_iterations llm tm ht reg).1.iterations_used
          = max_iterations)
    ∧ ∀ llm2 : Nat → WorkerLLM,
        (sub_agent_execute atype max_iterations llm2 tm ht reg).1.iterations_used
          ≤ max_iterations := by
  constructor
  · have := sub_agent_loop_cap atype llm tm ht reg max_iterations 0 [] [] []
      (by intro k h1 h2; exact hcap k h1 (by omega))
    exact ⟨this.1, this.2.1, by have h := this.2.2; simpa using h⟩
  · intro llm2
    have := sub_agent_loop_iterations_le atype llm2 tm ht reg max_iterations 0 [] [] []
    simpa using this

/-- Witness for `worker_iteration_limit`: a worker with cap 2 whose
service requests an action on every iteration. -/
theorem worker_iteration_limit_witness :
    (sub_agent_execute none 2 (fun _ => .message [{ name := "list_tasks" }] none)
        [] (fun _ => false) (fun _ _ => { success := false })).1.error
      = some "iteration_limit" :=
  (worker_iteration_limit none 2 (fun _ => .message [{ name := "list_tasks" }] none)
    [] (fun _ => false) (fun _ _ => { success := false })
    (fun _ _ _ => ⟨[{ name := "list_tasks" }], none, rfl, by decide⟩)).1.2.1

/-- C1 (failing run): in the sub-agent worker loop the sensitive action
`send_email` — a member of the static allow-list — is invoked against
the tool registry directly: `BaseSubAgent.execute` contains no
confirmation-gate check, the returned result does not request
confirmation, and no `PendingConfirmation` is ever created
(the worker never touches the `ConfirmationManager`).  This contradicts
the specified behaviour of returning `requires_confirmation = true`
before any registry invocation. -/
theorem worker_invokes_sensitive_action_unconfirmed :
    requiresConfirmation "send_email" = true
    ∧ (sub_agent_execute (some .email) 5 emailScript emailToolMapping
        (fun t => t == "gmail") (fun _ _ => { success := true, data := some "ok" })).2
      = ["send_email"]
    ∧ (sub_agent_execute (some .email) 5 emailScript emailToolMapping
        (fun t => t == "gmail") (fun _ _ => { success := true, data := some "ok" })).1.success
      = true
    ∧ (sub_agent_execute (some .email) 5 emailScript emailToolMapping
        (fun t => t == "gmail") (fun _ _ => { success := true, data := some "ok" })).1.requires_user_input
      = false
    ∧ (sub_agent_execute (some .email) 5 emailScript emailToolMapping
        (fun t => t == "gmail") (fun _ _ => { success := true, data := some "ok" })).1.tools_called
      = ["send_email"] := by
  refine ⟨rfl, ?_, ?_, ?_, ?_⟩ <;> rfl

/-- C5 (failing run): when the planner reply is truncated
(`finish_reason == "length"`), `_create_plan` raises its distinct
cut-off error but the blanket `except` of the same function swallows it
and returns `None`, so `process` falls back to the generic
direct response — the user sees the rephrase message, not the distinct
cut-off message. -/
theorem planning_truncation_swallowed :
    create_plan "remind me to stretch at 9" 0 .finishLength = none
    ∧ plan_or_fallback "remind me to stretch at 9" 0 .finishLength
        = .inr directResponseText
    ∧ directResponseText ≠ planningCutMessage := by
  refine ⟨rfl, rfl, ?_⟩
  decide

/-! ## Confirmation-gate lemmas -/

/-- After `del pending_actions[user_id]` the user has no entry. -/
theorem confLookup_confRemove (m : ConfState) (u : Nat) :
    confLookup (confRemove m u) u = none := by
  induction m with
  | nil => rfl
  | cons e rest ih =>
      cases e with
      | mk v p =>
          by_cases h : v = u
          · subst h
            simpa [confRemove, List.filter_cons] using ih
          · simpa [confRemove, List.filter_cons, h, confLookup] using ih

/-- Lookup in a table without an entry for the user falls through an
append. -/
theorem confLookup_append_of_none (m1 m2 : ConfState) (u : Nat)
    (h : confLookup m1 u = none) :
    confLookup (m1 ++ m2) u = confLookup m2 u := by
  induction m1 with
  | nil => rfl
  | cons e rest ih =>
      cases e with
      | mk v p =>
          simp only [confLookup] at h
          by_cases he : v = u
          · rw [if_pos he] at h
            exact absurd h (by simp)
          · rw [if_neg he] at h
            simp only [List.cons_append, confLookup, if_neg he]
            exact ih h

/-- Dictionary assignment makes the entry visible. -/
theorem confLookup_confSet (m : ConfState) (u : Nat) (p : PendingAction) :
    confLookup (confSet m u p) u = some p := by
  unfold confSet
  rw [confLookup_append_of_none _ _ _ (confLookup_confRemove m u)]
  simp [confLookup]

/-- C8: `confirm_action` returns-and-clears exactly when a non-expired
pending entry exists for the user.  Conjuncts: (a) with a non-expired
entry, confirming returns it and removes it, and a second confirm
returns absent; (b) any returned entry was present and non-expired;
(c) confirming with nothing pending returns absent and leaves the table
unchanged — no exception; (d) an entry created at time `T` (TTL five
minutes) is unreachable through `confirm_action` at `T + 6` minutes. -/
theorem confirm_semantics (now : Nat) (m : ConfState) (u : Nat) :
    (∀ p, confLookup m u = some p → p.is_expired now = false →
        confirm_action now m u = (some p, confRemove m u)
        ∧ (confirm_action now (confirm_action now m u).2 u).1 = none)
    ∧ (∀ p, (confirm_action now m u).1 = some p →
        confLookup m u = some p ∧ p.is_expired now = false)
    ∧ (confLookup m u = none → confirm_action now m u = (none, m))
    ∧ (∀ T name args desc aid,
        (confirm_action (T + 6 * 60)
          (create_pending_action m u T name args desc aid).2 u).1 = none) := by
  refine ⟨?_, ?_, ?_, ?_⟩
  · intro p hp hexp
    have h1 : confirm_action now m u = (some p, confRemove m u) := by
      simp [confirm_action, get_pending_action, hp, hexp]
    refine ⟨h1, ?_⟩
    rw [h1]
    simp [confirm_action, get_pending_action, confLookup_confRemove]
  · intro p hp
    unfold confirm_action get_pending_action at hp
    cases hl : confLookup m u with
    | none => rw [hl] at hp; simp at hp
    | some q =>
        rw [hl] at hp
        by_cases he : q.is_expired now
        · simp [he] at hp
        · simp [he] at hp
          simp only [Bool.not_eq_true] at he
          exact ⟨congrArg some hp, by rw [← hp]; exact he⟩
  · intro h
    simp [confirm_action, get_pending_action, h]
  · intro T name args desc aid
    have hset := confLookup_confSet m u
      { action_name := name, arguments := args
        description := desc ++ "\n\n⏱️ _Expires in 5 minutes_"
        action_id := aid, created_at := T, expires_at := T + 5 * 60 }
    simp only [create_pending_action, confirm_action, get_pending_action, hset]
    have hx : PendingAction.is_expired
        { action_name := name, arguments := args
          description := desc ++ "\n\n⏱️ _Expires in 5 minutes_"
          action_id := aid, created_at := T, expires_at := T + 5 * 60 }
        (T + 6 * 60) = true := by
      simp [PendingAction.is_expired]
    simp [hx]

/-- Witness for `confirm_semantics`: a concrete non-expired entry is
returned once and absent on the second confirm. -/
theorem confirm_semantics_witness :
    confirm_action 10 [(7, pend0)] 7 = (some pend0, confRemove [(7, pend0)] 7)
    ∧ (confirm_action 10 (confirm_action 10 [(7, pend0)] 7).2 7).1 = none :=
  (confirm_semantics 10 [(7, pend0)] 7).1 pend0 (by decide) (by decide)

/-! ## Scratchpad persistence and recovery -/

/-- Helper: a run that wrote nothing did not change the state. -/
theorem wm_run_none (ops : List WMOp) : ∀ st : WMState,
    (wm_run st ops).2 = none → (wm_run st ops).1 = st := by
  induction ops with
  | nil => intro st _; rfl
  | cons op rest ih =>
      intro st h
      exfalso
      simp only [wm_run] at h
      cases hr : wm_run (wm_apply st op).1 rest with
      | mk st' o =>
          cases o with
          | none => rw [hr] at h; simp at h
          | some d => rw [hr] at h; simp at h

/-- C4 counterexample: `record_step` persists the new step record to
durable storage, yet a fresh `WorkingMemory` constructed over that very
storage does not recover the step history — `_load` leaves
`step_records` empty — so a restart mid-plan loses the completed step
history (while notes and context do survive). -/
theorem wm_restart_drops_step_history :
    ((wm_apply {} (.record_step sampleStep sampleResult 5)).1).step_records
      = [mkStepRecord sampleStep sampleResult 5]
    ∧ ((wm_apply {} (.record_step sampleStep sampleResult 5)).2).step_records
      = [mkStepRecord sampleStep sampleResult 5]
    ∧ (wm_load (some (wm_apply {} (.record_step sampleStep sampleResult 5)).2)).step_records
      = [] :=
  ⟨rfl, rfl, rfl⟩

/-- C4 amended: every scratchpad mutation synchronously persists the
full state (the written document equals the serialization of the new
state, after any sequence of mutations), and a fresh `WorkingMemory`
over that storage restores `session_notes` and `user_context` (and the
plan, through its dict round trip) — but starts with an empty
`step_records` history. -/
theorem wm_persistence_and_recovery :
    (∀ (st : WMState) (op : WMOp), (wm_apply st op).2 = wm_save (wm_apply st op).1)
    ∧ (∀ (st : WMState) (ops : List WMOp) (d : WMStorage),
        (wm_run st ops).2 = some d → d = wm_save (wm_run st ops).1)
    ∧ (∀ st : WMState, wm_load (some (wm_save st)) =
        { current_plan := st.current_plan.map planRoundtrip
          step_records := []
          session_notes := st.session_notes
          user_context := st.user_context }) := by
  have happ : ∀ (st : WMState) (op : WMOp),
      (wm_apply st op).2 = wm_save (wm_apply st op).1 := by
    intro st op
    cases op <;> rfl
  refine ⟨happ, ?_, ?_⟩
  · intro st ops
    induction ops generalizing st with
    | nil => intro d h; simp [wm_run] at h
    | cons op rest ih =>
        intro d h
        simp only [wm_run] at h ⊢
        cases hr : wm_run (wm_apply st op).1 rest with
        | mk st' o =>
            cases o with
            | none =>
                rw [hr] at h
                have hd : (wm_apply st op).2 = d := Option.some.inj h
                have hst : st' = (wm_apply st op).1 := by
                  have h2 := wm_run_none rest (wm_apply st op).1 (by rw [hr])
                  rw [hr] at h2
                  exact h2
                show d = wm_save st'
                rw [← hd, hst]
                exact happ st op
            | some d' =>
                rw [hr] at h
                have hd : d' = d := Option.some.inj h
                have h3 := ih (wm_apply st op).1 d' (by rw [hr])
                rw [hr] at h3
                show d = wm_save st'
                rw [← hd]
                exact h3
  · intro st
    rfl

/-- Witness for `wm_persistence_and_recovery`: after a concrete
note-then-record sequence the last written document is the
serialization of the final state. -/
theorem wm_persistence_witness :
    wm_save ((wm_run {} [.add_note "n" "observation" 1,
      .record_step sampleStep sampleResult 5]).1)
    = (wm_apply (wm_apply {} (.add_note "n" "observation" 1)).1
        (.record_step sampleStep sampleResult 5)).2 :=
  ((wm_persistence_and_recovery.2.1 {} [.add_note "n" "observation" 1,
      .record_step sampleStep sampleResult 5]
    (wm_apply (wm_apply {} (.add_note "n" "observation" 1)).1
        (.record_step sampleStep sampleResult 5)).2 (by rfl))).symm

/-! ## Synthesizer -/

/-- C6: when the recorded results consist of exactly one step and that
step succeeded, `_synthesize` passes its output through verbatim and
makes no reasoning-service call (the result is independent of the
service oracle and the call flag is false). -/
theorem synthesize_single_success_passthrough (llm : SynthLLM)
    (plan : ExecutionPlan) (rec : StepRecord)
    (h : rec.result.success = true) :
    (synthesize llm plan [rec]).1.response = rec.result.output
    ∧ (synthesize llm plan [rec]).2 = false := by
  simp [synthesize, get_all_results, h]

/-- Witness for `synthesize_single_success_passthrough`: the scenario
from the specification, a single-step plan whose worker output is
`"Recorded. You owe Sam 20."`. -/
theorem synthesize_single_success_witness :
    (synthesize .raised samplePlan [mkStepRecord sampleStep sampleResult 3]).1.response
      = "Recorded. You owe Sam 20."
    ∧ (synthesize .raised samplePlan [mkStepRecord sampleStep sampleResult 3]).2 = false :=
  synthesize_single_success_passthrough .raised samplePlan
    (mkStepRecord sampleStep sampleResult 3) rfl

/-- C9 counterexample: with two recorded results, none successful, a
failed reasoning-service call makes `_synthesize` reply `"Done."` — not
a generic could-not-complete message (that message is produced only
when there are no recorded results at all). -/
theorem synthesize_no_success_fallback_says_done :
    (synthesize .raised samplePlan [failedRecA, failedRecB]).1.response = "Done."
    ∧ "Done." ≠ "I couldn\x27t complete your request."
    ∧ (synthesize .raised samplePlan []).1.response
        = "I couldn\x27t complete your request." := by
  refine ⟨rfl, ?_, rfl⟩
  decide

/-- C9 amended: when the reasoning-service call of `_synthesize` fails
(for recorded results that are not a single success), the response is
the newline concatenation of the successful outputs, with `"Done."`
substituted when that concatenation is empty — in particular when no
step succeeded. -/
theorem synthesize_service_failure_fallback (plan : ExecutionPlan)
    (records : List StepRecord)
    (hne : records ≠ [])
    (hns : ∀ r, records = [r] → r.result.success = false) :
    (synthesize .raised plan records).1.response =
      (if String.intercalate "\n"
            (((get_all_results records).filter (fun r => r.success)).map
              (fun r => r.output)) = ""
       then "Done."
       else String.intercalate "\n"
            (((get_all_results records).filter (fun r => r.success)).map
              (fun r => r.output)))
    ∧ (synthesize .raised plan records).2 = true := by
  match records with
  | [] => exact absurd rfl hne
  | [r] =>
      have hr := hns r rfl
      simp [synthesize, get_all_results, synthesizeViaLLM, hr]
  | r1 :: r2 :: rest =>
      simp [synthesize, get_all_results, synthesizeViaLLM]

/-- Witness for `synthesize_service_failure_fallback`: a single failed
record falls back to `"Done."`. -/
theorem synthesize_service_failure_witness :
    (synthesize .raised samplePlan [failedRecA]).1.response
      = (if String.intercalate "\n"
            (((get_all_results [failedRecA]).filter (fun r => r.success)).map
              (fun r => r.output)) = ""
         then "Done."
         else String.intercalate "\n"
            (((get_all_results [failedRecA]).filter (fun r => r.success)).map
              (fun r => r.output))) :=
  (synthesize_service_failure_fallback samplePlan [failedRecA] (by decide)
    (fun r hr => by cases hr; rfl)).1

/-! ## Orchestrator lemmas: basic unfoldings -/

/-- Unfolding of `markRunningIdxs` on a cons. -/
theorem markRunningIdxs_cons (i : Nat) (rest : List Nat) (now : Nat)
    (steps : List PlanStep) :
    markRunningIdxs (i :: rest) now steps
      = markRunningIdxs rest now
          (match steps[i]? with
            | some s => steps.set i { s with status := .running, started_at := some now }
            | none => steps) := rfl

/-- Unfolding of `execSteps` on a cons. -/
theorem execSteps_cons (hA : AgentType → Bool) (o : Nat → ExecOutcome) (now : Nat)
    (i : Nat) (rest : List Nat) (p : List PlanStep × List StepRecord) :
    execSteps hA o now (i :: rest) p
      = execSteps hA o now rest (execute_step hA o now i p.1 p.2) := rfl

/-- Unfolding of `runWave`. -/
theorem runWave_def (hA : AgentType → Bool) (o : Nat → ExecOutcome) (now : Nat)
    (steps : List PlanStep) (records : List StepRecord) :
    runWave hA o now steps records
      = execSteps hA o now (readyIdxs steps)
          (markRunningIdxs (readyIdxs steps) now steps, records) := rfl

/-- Unfolding of one loop iteration of `execute_plan_loop`. -/
theorem execute_plan_loop_succ (hA : AgentType → Bool) (o : Nat → ExecOutcome)
    (now fuel : Nat) (steps : List PlanStep) (records : List StepRecord)
    (disp : List Nat) :
    execute_plan_loop hA o now (fuel + 1) steps records disp
      = if (readyIdxs steps).isEmpty then
          (if (steps.filter (fun s => isPending s.status)).isEmpty then
            (steps, records, disp, .done)
          else
            (steps, records, disp, .stuck))
        else
          execute_plan_loop hA o now fuel
            (runWave hA o now steps records).1 (runWave hA o now steps records).2
            (disp ++ readyIdxs steps) := rfl

/-! ## Orchestrator lemmas: effects of one step -/

/-- `execEffect` only rewrites the execution fields of a step: identity,
agent, task, dependencies and the confirmation flag are untouched. -/
theorem execEffect_core (hA : AgentType → Bool) (o : Nat → ExecOutcome)
    (now i : Nat) (s : PlanStep) :
    (execEffect hA o now i s).1.id = s.id
    ∧ (execEffect hA o now i s).1.agent = s.agent
    ∧ (execEffect hA o now i s).1.depends_on = s.depends_on
    ∧ (execEffect hA o now i s).1.task = s.task
    ∧ (execEffect hA o now i s).1.requires_confirmation = s.requires_confirmation := by
  unfold execEffect
  by_cases h : hA s.agent = false
  · simp [h]
  · rw [if_neg h]
    cases o i with
    | raised msg => simp
    | returned r => simp

/-- After `execEffect` the step is `Completed` or `Failed`. -/
theorem execEffect_status_cases (hA : AgentType → Bool) (o : Nat → ExecOutcome)
    (now i : Nat) (s : PlanStep) :
    (execEffect hA o now i s).1.status = .completed
    ∨ (execEffect hA o now i s).1.status = .failed := by
  unfold execEffect
  by_cases h : hA s.agent = false
  · right; simp [h]
  · rw [if_neg h]
    cases o i with
    | raised msg => right; simp
    | returned r =>
        cases hr : r.success
        · right; simp [hr]
        · left; simp [hr]

/-- After `execEffect` the step is never `Pending`. -/
theorem execEffect_not_pending (hA : AgentType → Bool) (o : Nat → ExecOutcome)
    (now i : Nat) (s : PlanStep) :
    isPending (execEffect hA o now i s).1.status = false := by
  rcases execEffect_status_cases hA o now i s with h | h <;> rw [h] <;> rfl

/-- A failing sub-agent call leaves the step `Failed`. -/
theorem execEffect_failsAt (hA : AgentType → Bool) (o : Nat → ExecOutcome)
    (now i : Nat) (s : PlanStep) (h : failsAt hA o i s.agent) :
    (execEffect hA o now i s).1.status = .failed := by
  unfold execEffect
  rcases h with h | ⟨msg, h⟩ | ⟨r, h, hr⟩
  · simp [h]
  · by_cases hag : hA s.agent = false
    · simp [hag]
    · rw [if_neg hag, h]
  · by_cases hag : hA s.agent = false
    · simp [hag]
    · rw [if_neg hag, h]; simp [hr]

/-- `execute_step` rewrites position `i` through `execEffect` and keeps
every other position. -/
theorem execute_step_fst_getElem (hA : AgentType → Bool) (o : Nat → ExecOutcome)
    (now i : Nat) (steps : List PlanStep) (records : List StepRecord) (j : Nat) :
    (execute_step hA o now i steps records).1[j]? =
      if j = i then (steps[i]?).map (fun s => (execEffect hA o now i s).1)
      else steps[j]? := by
  unfold execute_step
  cases hi : steps[i]? with
  | none =>
      by_cases hj : j = i
      · subst hj; rw [if_pos rfl, hi]; rfl
      · rw [if_neg hj]
  | some s =>
      have hilen : i < steps.length := by
        rcases List.getElem?_eq_some.mp hi with ⟨h, _⟩
        exact h
      rw [List.getElem?_set]
      by_cases hj : j = i
      · subst hj
        rw [if_pos rfl, if_pos rfl, if_pos hilen]
        rfl
      · rw [if_neg hj, if_neg (fun h => hj h.symm)]

/-- `execute_step` appends the record produced at position `i`
(none in the failure branches). -/
theorem execute_step_snd (hA : AgentType → Bool) (o : Nat → ExecOutcome)
    (now i : Nat) (steps : List PlanStep) (records : List StepRecord) :
    (execute_step hA o now i steps records).2 =
      records ++ ((steps[i]?).bind (fun s => (execEffect hA o now i s).2)).toList := by
  unfold execute_step
  cases hi : steps[i]? with
  | none => simp
  | some s => rfl

/-! ## Orchestrator lemmas: marking and executing a wave -/

/-- Marking preserves the length of the step list. -/
theorem markRunningIdxs_length (now : Nat) : ∀ (idxs : List Nat) (steps : List PlanStep),
    (markRunningIdxs idxs now steps).length = steps.length := by
  intro idxs
  induction idxs with
  | nil => intro steps; rfl
  | cons i rest ih =>
      intro steps
      rw [markRunningIdxs_cons]
      cases hi : steps[i]? with
      | none => exact ih steps
      | some s => rw [ih]; exact List.length_set steps i _

/-- Positions outside the marked set are untouched by marking. -/
theorem markRunningIdxs_not_mem (now : Nat) : ∀ (idxs : List Nat) (steps : List PlanStep)
    (j : Nat), j ∉ idxs →
    (markRunningIdxs idxs now steps)[j]? = steps[j]? := by
  intro idxs
  induction idxs with
  | nil => intro steps j _; rfl
  | cons i rest ih =>
      intro steps j hj
      have hji : j ≠ i := fun h => hj (h ▸ List.mem_cons_self i rest)
      have hjr : j ∉ rest := fun h => hj (List.mem_cons_of_mem i h)
      rw [markRunningIdxs_cons]
      cases hi : steps[i]? with
      | none => exact ih steps j hjr
      | some s =>
          rw [ih _ j hjr, List.getElem?_set, if_neg (fun h => hji h.symm)]

/-- A marked in-bounds position carries the `RUNNING` version of its
original step. -/
theorem markRunningIdxs_mem (now : Nat) : ∀ (idxs : List Nat) (steps : List PlanStep)
    (j : Nat) (s : PlanStep), j ∈ idxs → steps[j]? = some s →
    (markRunningIdxs idxs now steps)[j]?
      = some { s with status := .running, started_at := some now } := by
  intro idxs
  induction idxs with
  | nil => intro steps j s hj; exact absurd hj (List.not_mem_nil j)
  | cons i rest ih =>
      intro steps j s hj hs
      rw [markRunningIdxs_cons]
      by_cases hji : j = i
      · subst hji
        rw [hs]
        have hlen : j < steps.length := by
          rcases List.getElem?_eq_some.mp hs with ⟨h, _⟩
          exact h
        have hset : (steps.set j { s with status := .running, started_at := some now })[j]?
            = some { s with status := .running, started_at := some now } := by
          rw [List.getElem?_set, if_pos rfl, if_pos hlen]
        by_cases hjr : j ∈ rest
        · rw [ih _ j _ hjr hset]
        · rw [markRunningIdxs_not_mem now rest _ j hjr, hset]
      · have hjr : j ∈ rest := by
          rcases List.mem_cons.mp hj with h | h
          · exact absurd h hji
          · exact h
        cases hi : steps[i]? with
        | none => exact ih steps j s hjr hs
        | some t =>
            have hs2 : (steps.set i { t with status := .running, started_at := some now })[j]?
                = some s := by
              rw [List.getElem?_set, if_neg (fun h => hji h.symm)]
              exact hs
            exact ih _ j s hjr hs2

/-- Positions outside the executed set are untouched by `execSteps`. -/
theorem execSteps_not_mem (hA : AgentType → Bool) (o : Nat → ExecOutcome) (now : Nat) :
    ∀ (idxs : List Nat) (p : List PlanStep × List StepRecord) (j : Nat), j ∉ idxs →
    (execSteps hA o now idxs p).1[j]? = p.1[j]? := by
  intro idxs
  induction idxs with
  | nil => intro p j _; rfl
  | cons i rest ih =>
      intro p j hj
      have hji : j ≠ i := fun h => hj (h ▸ List.mem_cons_self i rest)
      have hjr : j ∉ rest := fun h => hj (List.mem_cons_of_mem i h)
      rw [execSteps_cons, ih _ j hjr, execute_step_fst_getElem, if_neg hji]

/-- A position inside a duplicate-free executed set carries the
`execEffect` image of its step value at wave start. -/
theorem execSteps_mem (hA : AgentType → Bool) (o : Nat → ExecOutcome) (now : Nat) :
    ∀ (idxs : List Nat), idxs.Nodup →
    ∀ (p : List PlanStep × List StepRecord) (j : Nat), j ∈ idxs →
    (execSteps hA o now idxs p).1[j]?
      = (p.1[j]?).map (fun s => (execEffect hA o now j s).1) := by
  intro idxs
  induction idxs with
  | nil => intro _ p j hj; exact absurd hj (List.not_mem_nil j)
  | cons i rest ih =>
      intro hnd p j hj
      rcases List.nodup_cons.mp hnd with ⟨hin, hnd'⟩
      rw [execSteps_cons]
      by_cases hji : j = i
      · subst hji
        rw [execSteps_not_mem hA o now rest _ j hin,
          execute_step_fst_getElem, if_pos rfl]
      · have hjr : j ∈ rest := by
          rcases List.mem_cons.mp hj with h | h
          · exact absurd h hji
          · exact h
        rw [ih hnd' _ j hjr, execute_step_fst_getElem, if_neg hji]

/-- The ready positions form a duplicate-free list. -/
theorem readyIdxs_nodup (steps : List PlanStep) : (readyIdxs steps).Nodup :=
  List.Nodup.filter _ (List.nodup_range _)

/-- What membership in the ready set means: an in-bounds position whose
step is `Pending` with all dependencies completed. -/
theorem readyIdxs_mem_spec (steps : List PlanStep) (j : Nat)
    (hj : j ∈ readyIdxs steps) :
    j < steps.length
    ∧ ∃ s, steps[j]? = some s ∧ isReadyStep (completedIds steps) s = true := by
  unfold readyIdxs at hj
  rcases List.mem_filter.mp hj with ⟨hr, hp⟩
  refine ⟨List.mem_range.mp hr, ?_⟩
  cases hs : steps[j]? with
  | none => rw [hs] at hp; simp at hp
  | some s => rw [hs] at hp; exact ⟨s, rfl, hp⟩

/-- Conversely, an in-bounds pending step with met dependencies is
ready. -/
theorem readyIdxs_mem_of (steps : List PlanStep) (j : Nat) (s : PlanStep)
    (hs : steps[j]? = some s) (hr : isReadyStep (completedIds steps) s = true) :
    j ∈ readyIdxs steps := by
  unfold readyIdxs
  refine List.mem_filter.mpr ⟨?_, ?_⟩
  · rcases List.getElem?_eq_some.mp hs with ⟨h, _⟩
    exact List.mem_range.mpr h
  · rw [hs]
    exact hr

/-! ## Orchestrator lemmas: one wave -/

/-- A position outside the ready set is untouched by a wave. -/
theorem runWave_not_ready (hA : AgentType → Bool) (o : Nat → ExecOutcome) (now : Nat)
    (steps : List PlanStep) (records : List StepRecord) (j : Nat)
    (hj : j ∉ readyIdxs steps) :
    (runWave hA o now steps records).1[j]? = steps[j]? := by
  rw [runWave_def, execSteps_not_mem hA o now _ _ j hj]
  exact markRunningIdxs_not_mem now _ steps j hj

/-- A ready position is marked `RUNNING` and then executed. -/
theorem runWave_ready (hA : AgentType → Bool) (o : Nat → ExecOutcome) (now : Nat)
    (steps : List PlanStep) (records : List StepRecord) (j : Nat) (s : PlanStep)
    (hj : j ∈ readyIdxs steps) (hs : steps[j]? = some s) :
    (runWave hA o now steps records).1[j]?
      = some (execEffect hA o now j
          { s with status := .running, started_at := some now }).1 := by
  rw [runWave_def, execSteps_mem hA o now _ (readyIdxs_nodup steps) _ j hj]
  rw [markRunningIdxs_mem now _ steps j s hj hs]
  rfl

/-- A wave preserves the identity of every position (in particular the
length and the id list of the plan). -/
theorem runWave_map_id (hA : AgentType → Bool) (o : Nat → ExecOutcome) (now : Nat)
    (steps : List PlanStep) (records : List StepRecord) :
    (runWave hA o now steps records).1.map (fun s => s.id)
      = steps.map (fun s => s.id) := by
  apply List.ext_getElem?
  intro n
  rw [List.getElem?_map, List.getElem?_map]
  by_cases hn : n ∈ readyIdxs steps
  · rcases readyIdxs_mem_spec steps n hn with ⟨_, s, hs, _⟩
    rw [runWave_ready hA o now steps records n s hn hs, hs]
    have hid := (execEffect_core hA o now n
      { s with status := .running, started_at := some now }).1
    rw [Option.map_some', Option.map_some', hid]
  · rw [runWave_not_ready hA o now steps records n hn]

/-- A wave preserves the length of the step list. -/
theorem runWave_length (hA : AgentType → Bool) (o : Nat → ExecOutcome) (now : Nat)
    (steps : List PlanStep) (records : List StepRecord) :
    (runWave hA o now steps records).1.length = steps.length := by
  have h := congrArg List.length (runWave_map_id hA o now steps records)
  simpa using h

/-- Across a wave every step status only advances. -/
theorem runWave_status_advances (hA : AgentType → Bool) (o : Nat → ExecOutcome)
    (now : Nat) (steps : List PlanStep) (records : List StepRecord) (j : Nat)
    (s : PlanStep) (hs : steps[j]? = some s) :
    ∃ s', (runWave hA o now steps records).1[j]? = some s'
      ∧ statusAdvances s.status s'.status = true := by
  by_cases hj : j ∈ readyIdxs steps
  · refine ⟨_, runWave_ready hA o now steps records j s hj hs, ?_⟩
    rcases readyIdxs_mem_spec steps j hj with ⟨_, t, ht, hready⟩
    have hts : t = s := by rw [hs] at ht; exact (Option.some.inj ht).symm
    subst hts
    have hpend : isPending t.status = true := by
      unfold isReadyStep at hready
      exact ((Bool.and_eq_true _ _) ▸ hready).1
    have hpend' : t.status = .pending := by
      cases h : t.status <;> rw [h] at hpend <;> first | rfl | exact absurd hpend (by simp [isPending])
    rw [hpend']
    rcases execEffect_status_cases hA o now j
      { t with status := .running, started_at := some now } with h | h <;> rw [h] <;> rfl
  · exact ⟨s, by rw [runWave_not_ready hA o now steps records j hj]; exact hs,
      by cases s.status <;> rfl⟩

/-! ## Orchestrator lemmas: pending count decreases -/

/-- Counting pending steps, cons case. -/
theorem countPending_cons (a : PlanStep) (t : List PlanStep) :
    countPending (a :: t) = (if isPending a.status then 1 else 0) + countPending t := by
  unfold countPending
  rw [List.filter_cons]
  cases h : isPending a.status
  · simp
  · simp
    omega

/-- Replacing any position by a non-pending step does not increase the
pending count. -/
theorem countPending_set_le (b : PlanStep) (hb : isPending b.status = false) :
    ∀ (l : List PlanStep) (i : Nat), countPending (l.set i b) ≤ countPending l := by
  intro l
  induction l with
  | nil => intro i; simp [List.set]
  | cons x t ih =>
      intro i
      cases i with
      | zero =>
          simp only [List.set]
          rw [countPending_cons, countPending_cons]
          have hb2 : ¬ (isPending b.status = true) := by simp [hb]
          rw [if_neg hb2]
          split_ifs <;> omega
      | succ n =>
          simp only [List.set]
          rw [countPending_cons, countPending_cons]
          have := ih n
          omega

/-- Replacing a pending position by a non-pending step strictly
decreases the pending count. -/
theorem countPending_set_lt (b : PlanStep) (hb : isPending b.status = false) :
    ∀ (l : List PlanStep) (i : Nat) (a : PlanStep), l[i]? = some a →
      isPending a.status = true →
      countPending (l.set i b) < countPending l := by
  intro l
  induction l with
  | nil => intro i a ha; simp at ha
  | cons x t ih =>
      intro i a ha hpa
      cases i with
      | zero =>
          have hxa : x = a := by simpa using ha
          subst hxa
          simp only [List.set]
          rw [countPending_cons, countPending_cons]
          have hb2 : ¬ (isPending b.status = true) := by simp [hb]
          rw [if_neg hb2, if_pos hpa]
          omega
      | succ n =>
          simp only [List.set]
          rw [countPending_cons, countPending_cons]
          have := ih n a (by simpa using ha) hpa
          omega

/-- Marking never increases the pending count. -/
theorem markRunningIdxs_countPending_le (now : Nat) :
    ∀ (idxs : List Nat) (steps : List PlanStep),
    countPending (markRunningIdxs idxs now steps) ≤ countPending steps := by
  intro idxs
  induction idxs with
  | nil => intro steps; exact le_refl _
  | cons i rest ih =>
      intro steps
      rw [markRunningIdxs_cons]
      cases hi : steps[i]? with
      | none => exact ih steps
      | some s =>
          exact le_trans (ih _)
            (countPending_set_le { s with status := .running, started_at := some now }
              rfl steps i)

/-- Executing a step never increases the pending count. -/
theorem execute_step_countPending_le (hA : AgentType → Bool) (o : Nat → ExecOutcome)
    (now i : Nat) (steps : List PlanStep) (records : List StepRecord) :
    countPending (execute_step hA o now i steps records).1 ≤ countPending steps := by
  unfold execute_step
  cases hi : steps[i]? with
  | none => exact le_refl _
  | some s =>
      exact countPending_set_le _ (execEffect_not_pending hA o now i s) steps i

/-- Executing a wave of positions never increases the pending count. -/
theorem execSteps_countPending_le (hA : AgentType → Bool) (o : Nat → ExecOutcome)
    (now : Nat) : ∀ (idxs : List Nat) (p : List PlanStep × List StepRecord),
    countPending (execSteps hA o now idxs p).1 ≤ countPending p.1 := by
  intro idxs
  induction idxs with
  | nil => intro p; exact le_refl _
  | cons i rest ih =>
      intro p
      rw [execSteps_cons]
      exact le_trans (ih _) (execute_step_countPending_le hA o now i p.1 p.2)

/-- A wave with a non-empty ready set strictly decreases the pending
count: the first ready step is pending and is marked `RUNNING`. -/
theorem runWave_countPending_lt (hA : AgentType → Bool) (o : Nat → ExecOutcome)
    (now : Nat) (steps : List PlanStep) (records : List StepRecord)
    (hne : readyIdxs steps ≠ []) :
    countPending (runWave hA o now steps records).1 < countPending steps := by
  rw [runWave_def]
  cases hr : readyIdxs steps with
  | nil => exact absurd hr hne
  | cons i rest =>
      have hmem : i ∈ readyIdxs steps := by rw [hr]; exact List.mem_cons_self i rest
      rcases readyIdxs_mem_spec steps i hmem with ⟨hlt, s, hs, hready⟩
      have hpend : isPending s.status = true := by
        unfold isReadyStep at hready
        exact ((Bool.and_eq_true _ _) ▸ hready).1
      have h1 : countPending (execSteps hA o now (i :: rest)
          (markRunningIdxs (i :: rest) now steps, records)).1
          ≤ countPending (markRunningIdxs (i :: rest) now steps) :=
        execSteps_countPending_le hA o now (i :: rest) _
      have h2 : countPending (markRunningIdxs (i :: rest) now steps)
          ≤ countPending (steps.set i
              { s with status := .running, started_at := some now }) := by
        rw [markRunningIdxs_cons, hs]
        exact markRunningIdxs_countPending_le now rest _
      have h3 : countPending (steps.set i
            { s with status := .running, started_at := some now })
          < countPending steps :=
        countPending_set_lt { s with status := .running, started_at := some now }
          rfl steps i s hs hpend
      omega

/-! ## Orchestrator lemmas: the loop terminates in done or stuck -/

/-- Transitivity of the status order. -/
theorem statusAdvances_trans {a b c : StepStatus}
    (h1 : statusAdvances a b = true) (h2 : statusAdvances b c = true) :
    statusAdvances a c = true := by
  cases a <;> cases b <;> cases c <;> simp_all [statusAdvances]

/-- With fuel exceeding the pending count, the loop never exhausts
its fuel: `_execute_plan` always ends in the done or stuck branch. -/
theorem execute_plan_loop_no_fuelOut (hA : AgentType → Bool) (o : Nat → ExecOutcome)
    (now : Nat) : ∀ (fuel : Nat) (steps : List PlanStep) (records : List StepRecord)
    (disp : List Nat), countPending steps < fuel →
    (execute_plan_loop hA o now fuel steps records disp).2.2.2 ≠ .fuelOut := by
  intro fuel
  induction fuel with
  | zero => intro steps records disp h; omega
  | succ n ih =>
      intro steps records disp h
      rw [execute_plan_loop_succ]
      by_cases hready : (readyIdxs steps).isEmpty
      · rw [if_pos hready]
        by_cases hpend : (steps.filter (fun s => isPending s.status)).isEmpty
        · rw [if_pos hpend]; intro hc; cases hc
        · rw [if_neg hpend]; intro hc; cases hc
      · rw [if_neg hready]
        apply ih
        have hlt := runWave_countPending_lt hA o now steps records
          (by intro hnil; exact hready (by rw [hnil]; rfl))
        omega

/-- Across any number of loop iterations every step status only
advances. -/
theorem execute_plan_loop_status_advances (hA : AgentType → Bool)
    (o : Nat → ExecOutcome) (now : Nat) :
    ∀ (fuel : Nat) (steps : List PlanStep) (records : List StepRecord)
      (disp : List Nat) (j : Nat) (s : PlanStep), steps[j]? = some s →
    ∃ s', (execute_plan_loop hA o now fuel steps records disp).1[j]? = some s'
      ∧ statusAdvances s.status s'.status = true := by
  intro fuel
  induction fuel with
  | zero =>
      intro steps records disp j s hs
      exact ⟨s, hs, by cases s.status <;> rfl⟩
  | succ n ih =>
      intro steps records disp j s hs
      rw [execute_plan_loop_succ]
      by_cases hready : (readyIdxs steps).isEmpty
      · rw [if_pos hready]
        by_cases hpend : (steps.filter (fun s => isPending s.status)).isEmpty
        · rw [if_pos hpend]
          exact ⟨s, hs, by cases s.status <;> rfl⟩
        · rw [if_neg hpend]
          exact ⟨s, hs, by cases s.status <;> rfl⟩
      · rw [if_neg hready]
        rcases runWave_status_advances hA o now steps records j s hs with ⟨s1, hs1, hadv1⟩
        rcases ih (runWave hA o now steps records).1 (runWave hA o now steps records).2
          (disp ++ readyIdxs steps) j s1 hs1 with ⟨s2, hs2, hadv2⟩
        exact ⟨s2, hs2, statusAdvances_trans hadv1 hadv2⟩

/-- C3: step statuses are monotonic under the orchestrator.  Across any
run of the `_execute_plan` loop (any fuel, so any number of waves) each
step status only advances along the order
`Pending → Running → {Completed, Failed}` — in particular
`Completed → Pending` is not an advance — and a step is marked
`Running` by a wave only if it was already `Running` or it was
`Pending` with every dependency in the completed-id set. -/
theorem step_status_monotonic (hA : AgentType → Bool) (o : Nat → ExecOutcome)
    (now : Nat) :
    (∀ (fuel : Nat) (steps : List PlanStep) (records : List StepRecord)
      (disp : List Nat) (j : Nat) (s : PlanStep), steps[j]? = some s →
      ∃ s', (execute_plan_loop hA o now fuel steps records disp).1[j]? = some s'
        ∧ statusAdvances s.status s'.status = true)
    ∧ (∀ (steps : List PlanStep) (j : Nat) (s s' : PlanStep),
        steps[j]? = some s →
        (markRunningIdxs (readyIdxs steps) now steps)[j]? = some s' →
        s'.status = .running →
        s.status = .running
        ∨ (s.status = .pending
            ∧ s.depends_on.all (fun d => (completedIds steps).contains d) = true))
    ∧ statusAdvances .completed .pending = false := by
  refine ⟨execute_plan_loop_status_advances hA o now, ?_, rfl⟩
  intro steps j s s' hs hs' hrun
  by_cases hj : j ∈ readyIdxs steps
  · rcases readyIdxs_mem_spec steps j hj with ⟨_, t, ht, hready⟩
    have hts : t = s := by rw [hs] at ht; exact (Option.some.inj ht).symm
    subst hts
    unfold isReadyStep at hready
    have hcon := (Bool.and_eq_true _ _) ▸ hready
    have hpend : t.status = .pending := by
      have h1 := hcon.1
      cases h : t.status <;> rw [h] at h1 <;>
        first | rfl | exact absurd h1 (by simp [isPending])
    exact Or.inr ⟨hpend, hcon.2⟩
  · rw [markRunningIdxs_not_mem now _ steps j hj, hs] at hs'
    have : s = s' := Option.some.inj hs'
    exact Or.inl (this ▸ hrun)

/-- Witness for `step_status_monotonic`: the single-step sample plan
after one loop iteration. -/
theorem step_status_monotonic_witness :
    ∃ s', (execute_plan_loop (fun _ => true)
        (fun _ => .returned sampleResult) 0 1 [sampleStep] [] []).1[0]? = some s'
      ∧ statusAdvances sampleStep.status s'.status = true :=
  (step_status_monotonic (fun _ => true) (fun _ => .returned sampleResult) 0).1
    1 [sampleStep] [] [] 0 sampleStep rfl

/-! ## Orchestrator lemmas: records appended by a wave -/

/-- Executing a duplicate-free set of positions appends exactly the
records its `execEffect`s produce, in order. -/
theorem execSteps_snd (hA : AgentType → Bool) (o : Nat → ExecOutcome) (now : Nat) :
    ∀ (idxs : List Nat), idxs.Nodup → ∀ (steps : List PlanStep) (records : List StepRecord),
    (execSteps hA o now idxs (steps, records)).2 =
      records ++ idxs.filterMap (fun i => (steps[i]?).bind
        (fun s => (execEffect hA o now i s).2)) := by
  intro idxs
  induction idxs with
  | nil => intro _ steps records; simp [execSteps]
  | cons i rest ih =>
      intro hnd steps records
      rcases List.nodup_cons.mp hnd with ⟨hin, hnd'⟩
      rw [execSteps_cons]
      have hpair : execute_step hA o now i steps records
          = ((execute_step hA o now i steps records).1,
             (execute_step hA o now i steps records).2) := rfl
      rw [hpair, ih hnd']
      have hcongr : rest.filterMap (fun j =>
            (((execute_step hA o now i steps records).1)[j]?).bind
              (fun s => (execEffect hA o now j s).2))
          = rest.filterMap (fun j => (steps[j]?).bind
              (fun s => (execEffect hA o now j s).2)) := by
        apply List.filterMap_congr
        intro j hj
        have hji : j ≠ i := fun h => hin (h ▸ hj)
        rw [execute_step_fst_getElem, if_neg hji]
      rw [hcongr, execute_step_snd, List.filterMap_cons]
      cases hi : steps[i]? with
      | none => simp
      | some s =>
          cases he : (execEffect hA o now i s).2 with
          | none => simp [he]
          | some rec => simp [he]

/-- C10: if a step has no registered sub-agent or its execution raises,
`_execute_step` only rewrites that step in place — status `Failed` with
a failure result attached, every other position untouched — and appends
nothing to the scratchpad; a wave appends exactly the records of the
positions whose sub-agent call returned normally (an `execEffect`
produces no record exactly in the two failure branches), so the results
list handed to synthesis grows only with steps whose call returned. -/
theorem step_failure_frame (hA : AgentType → Bool) (o : Nat → ExecOutcome)
    (now i : Nat) (steps : List PlanStep) (records : List StepRecord)
    (s : PlanStep) (hs : steps[i]? = some s)
    (hfail : hA s.agent = false ∨ ∃ msg, o i = .raised msg) :
    (execute_step hA o now i steps records).2 = records
    ∧ (∀ j, j ≠ i → (execute_step hA o now i steps records).1[j]? = steps[j]?)
    ∧ (∃ e, (execute_step hA o now i steps records).1[i]?
        = some { s with status := .failed, result := some (failureResult e) })
    ∧ (∀ (steps2 : List PlanStep) (records2 : List StepRecord),
        (runWave hA o now steps2 records2).2 = records2 ++
          (readyIdxs steps2).filterMap (fun j =>
            (((markRunningIdxs (readyIdxs steps2) now steps2)[j]?).bind
              (fun s2 => (execEffect hA o now j s2).2))))
    ∧ (∀ (s2 : PlanStep) (i2 : Nat),
        (execEffect hA o now i2 s2).2 = none ↔
          (hA s2.agent = false ∨ ∃ msg, o i2 = .raised msg)) := by
  have heffnone : ∀ (s2 : PlanStep) (i2 : Nat),
      (execEffect hA o now i2 s2).2 = none ↔
        (hA s2.agent = false ∨ ∃ msg, o i2 = .raised msg) := by
    intro s2 i2
    unfold execEffect
    by_cases hag : hA s2.agent = false
    · simp [hag]
    · rw [if_neg hag]
      cases ho : o i2 with
      | raised msg => simp [ho]
      | returned r => simp [ho, hag]
  have heff : ∃ e, execEffect hA o now i s
      = ({ s with status := .failed, result := some (failureResult e) }, none) := by
    unfold execEffect
    rcases hfail with h | ⟨msg, h⟩
    · exact ⟨"No sub-agent for " ++ agentValue s.agent, by rw [if_pos h]⟩
    · by_cases hag : hA s.agent = false
      · exact ⟨"No sub-agent for " ++ agentValue s.agent, by rw [if_pos hag]⟩
      · exact ⟨msg, by rw [if_neg hag, h]⟩
  rcases heff with ⟨e, heq⟩
  refine ⟨?_, ?_, ?_, ?_, heffnone⟩
  · rw [execute_step_snd, hs]
    simp [heq]
  · intro j hj
    rw [execute_step_fst_getElem, if_neg hj]
  · refine ⟨e, ?_⟩
    rw [execute_step_fst_getElem, if_pos rfl, hs]
    rw [Option.map_some', heq]
  · intro steps2 records2
    rw [runWave_def]
    rw [execSteps_snd hA o now _ (readyIdxs_nodup steps2)]

/-- Witness for `step_failure_frame`: a registry without the finance
sub-agent fails `sampleStep` in place and appends no record. -/
theorem step_failure_frame_witness :
    (execute_step (fun _ => false) (fun _ => .returned sampleResult) 0 0
        [sampleStep] []).2 = []
    ∧ (∃ e, (execute_step (fun _ => false) (fun _ => .returned sampleResult) 0 0
        [sampleStep] []).1[0]?
        = some { sampleStep with status := .failed, result := some (failureResult e) }) :=
  ⟨(step_failure_frame (fun _ => false) (fun _ => .returned sampleResult) 0 0
      [sampleStep] [] sampleStep rfl (Or.inl rfl)).1,
   (step_failure_frame (fun _ => false) (fun _ => .returned sampleResult) 0 0
      [sampleStep] [] sampleStep rfl (Or.inl rfl)).2.2.1⟩

/-! ## Orchestrator lemmas: a failed dependency blocks its dependents -/

/-- With duplicate-free ids, a position is determined by its id. -/
theorem nodup_id_unique (steps : List PlanStep)
    (hnodup : (steps.map (fun s => s.id)).Nodup) (j k : Nat) (s t : PlanStep)
    (hj : steps[j]? = some s) (hk : steps[k]? = some t) (hid : s.id = t.id) :
    j = k := by
  rcases List.getElem?_eq_some.mp hj with ⟨hjl, hjv⟩
  rcases List.getElem?_eq_some.mp hk with ⟨hkl, hkv⟩
  have hjl2 : j < (steps.map (fun s => s.id)).length := by
    rw [List.length_map]; exact hjl
  have hkl2 : k < (steps.map (fun s => s.id)).length := by
    rw [List.length_map]; exact hkl
  have heq : (steps.map (fun s => s.id))[j] = (steps.map (fun s => s.id))[k] := by
    rw [List.getElem_map, List.getElem_map, hjv, hkv, hid]
  exact (hnodup.getElem_inj_iff).mp heq

/-- A step that is not `Completed` keeps its id out of the
completed-id set when ids are duplicate free. -/
theorem not_mem_completedIds (steps : List PlanStep) (ib : Nat) (B : PlanStep)
    (hnodup : (steps.map (fun s => s.id)).Nodup)
    (hsB : steps[ib]? = some B) (hnc : B.status ≠ .completed) :
    B.id ∉ completedIds steps := by
  intro hmem
  unfold completedIds at hmem
  rcases List.mem_map.mp hmem with ⟨t, htf, hid⟩
  rcases List.mem_filter.mp htf with ⟨htm, htc⟩
  rcases List.mem_iff_getElem?.mp htm with ⟨k, hk⟩
  have hkib : k = ib := nodup_id_unique steps hnodup k ib t B hk hsB hid
  subst hkib
  have htB : t = B := Option.some.inj (hk.symm.trans hsB)
  subst htB
  apply hnc
  cases h : t.status <;> rw [h] at htc <;>
    first | rfl | exact absurd htc (by simp [isCompleted])

/-- One wave preserves the blocking situation: the dependent step `A`
(at `ia`, pending, depending on the id of the never-completed step `B`
at `ib`) is not ready, and after the wave ids are unchanged, `B` is
still not `Completed` (it fails if dispatched) and `A` is still
pending with the same dependencies. -/
theorem c2_wave_invariant (hA : AgentType → Bool) (o : Nat → ExecOutcome) (now : Nat)
    (ia ib : Nat) (bid : String) (adeps : List String)
    (steps : List PlanStep) (records : List StepRecord)
    (hnodup : (steps.map (fun s => s.id)).Nodup)
    (hdep : bid ∈ adeps)
    (hB : ∃ B', steps[ib]? = some B' ∧ B'.id = bid ∧ failsAt hA o ib B'.agent
       ∧ B'.status ≠ .completed)
    (hA' : ∃ A', steps[ia]? = some A' ∧ A'.status = .pending ∧ A'.depends_on = adeps) :
    ia ∉ readyIdxs steps
    ∧ ((runWave hA o now steps records).1.map (fun s => s.id)).Nodup
    ∧ (∃ B', (runWave hA o now steps records).1[ib]? = some B' ∧ B'.id = bid
        ∧ failsAt hA o ib B'.agent ∧ B'.status ≠ .completed)
    ∧ (∃ A', (runWave hA o now steps records).1[ia]? = some A' ∧ A'.status = .pending
        ∧ A'.depends_on = adeps) := by
  rcases hB with ⟨B', hsB, hidB, hfailB, hncB⟩
  rcases hA' with ⟨A', hsA, hpendA, hdepsA⟩
  have hbidnc : bid ∉ completedIds steps :=
    hidB ▸ not_mem_completedIds steps ib B' hnodup hsB hncB
  have hianr : ia ∉ readyIdxs steps := by
    intro hia
    rcases readyIdxs_mem_spec steps ia hia with ⟨_, t, ht, hready⟩
    have htA : t = A' := Option.some.inj (ht.symm.trans hsA)
    subst htA
    unfold isReadyStep at hready
    have hall := ((Bool.and_eq_true _ _) ▸ hready).2
    have hbid : (completedIds steps).contains bid = true :=
      (List.all_eq_true.mp hall) bid (hdepsA ▸ hdep)
    exact hbidnc (List.elem_iff.mp hbid)
  refine ⟨hianr, ?_, ?_, ?_⟩
  · rw [runWave_map_id]
    exact hnodup
  · by_cases hib : ib ∈ readyIdxs steps
    · refine ⟨(execEffect hA o now ib
        { B' with status := .running, started_at := some now }).1,
        runWave_ready hA o now steps records ib B' hib hsB, ?_, ?_, ?_⟩
      · rw [(execEffect_core hA o now ib _).1]
        exact hidB
      · rw [(execEffect_core hA o now ib _).2.1]
        exact hfailB
      · rw [execEffect_failsAt hA o now ib
            { B' with status := .running, started_at := some now } hfailB]
        intro h
        cases h
    · exact ⟨B', by rw [runWave_not_ready hA o now steps records ib hib]; exact hsB,
        hidB, hfailB, hncB⟩
  · exact ⟨A', by rw [runWave_not_ready hA o now steps records ia hianr]; exact hsA,
      hpendA, hdepsA⟩

/-- Through the whole loop the blocked dependent stays pending, is
never dispatched, and the run can only end stuck (or out of fuel). -/
theorem c2_loop (hA : AgentType → Bool) (o : Nat → ExecOutcome) (now : Nat)
    (ia ib : Nat) (bid : String) (adeps : List String) (hdep : bid ∈ adeps) :
    ∀ (fuel : Nat) (steps : List PlanStep) (records : List StepRecord) (disp : List Nat),
    (steps.map (fun s => s.id)).Nodup →
    (∃ B', steps[ib]? = some B' ∧ B'.id = bid ∧ failsAt hA o ib B'.agent
       ∧ B'.status ≠ .completed) →
    (∃ A', steps[ia]? = some A' ∧ A'.status = .pending ∧ A'.depends_on = adeps) →
    ia ∉ disp →
    (∃ A', (execute_plan_loop hA o now fuel steps records disp).1[ia]? = some A'
       ∧ A'.status = .pending)
    ∧ ia ∉ (execute_plan_loop hA o now fuel steps records disp).2.2.1
    ∧ ((execute_plan_loop hA o now fuel steps records disp).2.2.2 = .stuck
        ∨ (execute_plan_loop hA o now fuel steps records disp).2.2.2 = .fuelOut) := by
  intro fuel
  induction fuel with
  | zero =>
      intro steps records disp hnd hB hA' hdisp
      rcases hA' with ⟨A', hsA, hpend, _⟩
      exact ⟨⟨A', hsA, hpend⟩, hdisp, Or.inr rfl⟩
  | succ n ih =>
      intro steps records disp hnd hB hA' hdisp
      have hwave := c2_wave_invariant hA o now ia ib bid adeps steps records hnd hdep hB hA'
      rw [execute_plan_loop_succ]
      by_cases hready : (readyIdxs steps).isEmpty
      · rw [if_pos hready]
        rcases hA' with ⟨A', hsA, hpend, _⟩
        have hmem : A' ∈ steps := List.mem_iff_getElem?.mpr ⟨ia, hsA⟩
        have hmf : A' ∈ steps.filter (fun s => isPending s.status) :=
          List.mem_filter.mpr ⟨hmem, by rw [hpend]; rfl⟩
        have hpne : ¬ ((steps.filter (fun s => isPending s.status)).isEmpty = true) := by
          rw [List.isEmpty_iff]
          exact fun h => (List.ne_nil_of_mem hmf) h
        rw [if_neg hpne]
        exact ⟨⟨A', hsA, hpend⟩, hdisp, Or.inl rfl⟩
      · rw [if_neg hready]
        have hdisp2 : ia ∉ disp ++ readyIdxs steps := by
          intro h
          rcases List.mem_append.mp h with h | h
          · exact hdisp h
          · exact hwave.1 h
        exact ih (runWave hA o now steps records).1 (runWave hA o now steps records).2
          (disp ++ readyIdxs steps) hwave.2.1 hwave.2.2.1 hwave.2.2.2 hdisp2

/-- C2: in a fresh plan with duplicate-free step ids where step `A`
depends on step `B` and every attempt to execute `B` fails, `A` remains
`Pending` in the final state, `A` is never dispatched to a worker (its
position appears in no wave), and `_execute_plan` terminates, after
finitely many waves, in the stuck branch — it neither loops forever nor
aborts the other steps. -/
theorem failed_dependency_blocks_and_stuck (hA : AgentType → Bool)
    (o : Nat → ExecOutcome) (now : Nat) (steps : List PlanStep) (ia ib : Nat)
    (A B : PlanStep)
    (hnodup : (steps.map (fun s => s.id)).Nodup)
    (hsA : steps[ia]? = some A) (hsB : steps[ib]? = some B)
    (hdep : B.id ∈ A.depends_on)
    (hfresh : ∀ s ∈ steps, s.status = .pending)
    (hfail : failsAt hA o ib B.agent) :
    (∃ A', (execute_plan hA o now steps).1[ia]? = some A' ∧ A'.status = .pending)
    ∧ ia ∉ (execute_plan hA o now steps).2.2.1
    ∧ (execute_plan hA o now steps).2.2.2 = .stuck := by
  have hBmem : B ∈ steps := List.mem_iff_getElem?.mpr ⟨ib, hsB⟩
  have hAmem : A ∈ steps := List.mem_iff_getElem?.mpr ⟨ia, hsA⟩
  have hB0 : ∃ B', steps[ib]? = some B' ∧ B'.id = B.id ∧ failsAt hA o ib B'.agent
      ∧ B'.status ≠ .completed :=
    ⟨B, hsB, rfl, hfail, by rw [hfresh B hBmem]; intro h; cases h⟩
  have hA0 : ∃ A', steps[ia]? = some A' ∧ A'.status = .pending
      ∧ A'.depends_on = A.depends_on :=
    ⟨A, hsA, hfresh A hAmem, rfl⟩
  have hloop := c2_loop hA o now ia ib B.id A.depends_on hdep
    (countPending steps + 1) steps [] [] hnodup hB0 hA0 (List.not_mem_nil ia)
  have hterm := execute_plan_loop_no_fuelOut hA o now (countPending steps + 1)
    steps [] [] (by omega)
  refine ⟨hloop.1, hloop.2.1, ?_⟩
  rcases hloop.2.2 with h | h
  · exact h
  · exact absurd h hterm

/-- Witness for `failed_dependency_blocks_and_stuck`: the two-step
scenario from the specification (finance step fails, dependent calendar
step never runs, plan ends stuck). -/
theorem failed_dependency_witness :
    (∃ A', (execute_plan (fun _ => true) (fun _ => .returned failRes0) 0
        [stepB0, stepA0]).1[1]? = some A' ∧ A'.status = .pending)
    ∧ 1 ∉ (execute_plan (fun _ => true) (fun _ => .returned failRes0) 0
        [stepB0, stepA0]).2.2.1
    ∧ (execute_plan (fun _ => true) (fun _ => .returned failRes0) 0
        [stepB0, stepA0]).2.2.2 = .stuck :=
  failed_dependency_blocks_and_stuck (fun _ => true) (fun _ => .returned failRes0) 0
    [stepB0, stepA0] 1 0 stepA0 stepB0 (by decide) rfl rfl (by decide)
    (by decide) (Or.inr (Or.inr ⟨failRes0, rfl, rfl⟩))
